import Mathlib

/-!
Verification of structural and behavioural properties of the diem repository.

The development shallowly embeds three source files:

* src/priors/nn.py — the `UNet` backbone: the per-stage layer lists built by
  `UNet.__init__`, the descent/ascent traversal with skip connections of
  `UNet.__call__` (as a symbolic expression semantics), a shape semantics of
  the same traversal, and algebraic models of `ResBlock` and `Modulation`.
* src/experiments/cifar/train.py — the training orchestration: the per-lap
  job dependency chain of `__main__` and an event-trace model of `train`.
* src/experiments/fastmri/utils.py — `real2complex` / `complex2real` and
  `make_mask`.
-/

namespace Diem

/-! ### Layers of the U-Net (src/priors/nn.py, `UNet.__init__`, lines 164-223)

A `Layer` abstracts one module appearing in a descent (`do`) or ascent (`up`)
stage list.  `conv` is the stride-1 convolution with padding `k // 2`,
`convDown` the stride-2 convolution, `upsample` the
`nn.Sequential(nn.Resample(factor=2, method=nearest), nn.Conv(...))` pair, and
`linear` the plain `nn.Linear` closing the network. -/

inductive Layer where
  | posEmb : Layer
  | resBlock (channels : Nat) : Layer
  | attBlock (channels heads : Nat) : Layer
  | conv (cin cout : Nat) : Layer
  | convDown (cin cout : Nat) : Layer
  | upsample (cin cout : Nat) : Layer
  | linear (cin cout : Nat) : Layer
deriving DecidableEq

/-- Optional attention block appended after each residual block when the stage
index is a key of `heads` (lines 198-200). -/
def attOpt (c : Nat) (h? : Option Nat) : List Layer :=
  match h? with
  | some h => [Layer.attBlock c h]
  | none => []

/-- Body built by the `for _ in range(blocks)` loop (lines 194-200): each
iteration appends a residual block and, when the stage is in `heads`, an
attention block.  The same body is built for both `do` and `up`. -/
def stageBody (c : Nat) (h? : Option Nat) (blocks : Nat) : List Layer :=
  (List.range blocks).foldl (fun acc _ => acc ++ Layer.resBlock c :: attOpt c h?) []

/-- Descent list `do` of stage `i` (lines 189-219): starts empty, gets a
positional embedding when `i in heads`, then the block body, then the entry
convolution is inserted at position 0 (stride-2 for `i > 0`, plain for
`i = 0`). -/
def doStage (inCh : Nat) (hidC : List Nat) (heads : List (Nat × Nat)) (i blocks : Nat) : List Layer :=
  (if 0 < i then Layer.convDown (hidC.getD (i - 1) 0) (hidC.getD i 0)
   else Layer.conv inCh (hidC.getD i 0)) ::
    ((if (heads.lookup i).isSome then [Layer.posEmb] else []) ++
      stageBody (hidC.getD i 0) (heads.lookup i) blocks)

/-- Ascent list `up` of stage `i` (lines 189-220): the block body followed by
the appended exit layer (nearest upsample + convolution for `i > 0`, a plain
linear projection to `out_channels` for `i = 0`). -/
def upStage (outCh : Nat) (hidC : List Nat) (heads : List (Nat × Nat)) (i blocks : Nat) : List Layer :=
  stageBody (hidC.getD i 0) (heads.lookup i) blocks ++
    [if 0 < i then Layer.upsample (hidC.getD i 0) (hidC.getD (i - 1) 0)
     else Layer.linear (hidC.getD i 0) outCh]

/-- Descent stage lists built by `for i, blocks in enumerate(hid_blocks)` with
`self.descent.append(do)` (line 222); `j` is the index of the first remaining
stage. -/
def descentFrom (inCh : Nat) (hidC : List Nat) (heads : List (Nat × Nat)) (j : Nat) : List Nat → List (List Layer)
  | [] => []
  | b :: bs => doStage inCh hidC heads j b :: descentFrom inCh hidC heads (j + 1) bs

/-- Ascent stage lists built by `self.ascent.insert(0, up)` (line 223): each
later stage's list is inserted in front, so the deepest stage comes first. -/
def ascentFrom (outCh : Nat) (hidC : List Nat) (heads : List (Nat × Nat)) (j : Nat) : List Nat → List (List Layer)
  | [] => []
  | b :: bs => ascentFrom outCh hidC heads (j + 1) bs ++ [upStage outCh hidC heads j b]

/-- The full `self.descent` of `UNet.__init__`. -/
def unetDescent (inCh : Nat) (hidC : List Nat) (heads : List (Nat × Nat)) (hidB : List Nat) : List (List Layer) :=
  descentFrom inCh hidC heads 0 hidB

/-- The full `self.ascent` of `UNet.__init__`. -/
def unetAscent (outCh : Nat) (hidC : List Nat) (heads : List (Nat × Nat)) (hidB : List Nat) : List (List Layer) :=
  ascentFrom outCh hidC heads 0 hidB

/-! ### Symbolic semantics of `UNet.__call__` (lines 225-255)

Activations are modelled as expression trees.  Each layer application wraps
the input in a fresh `app` node tagged with the layer, the pass (`asc = false`
for descent, `true` for ascent) and the stage position, so that structural
equality of expressions coincides with Python object identity for all values
reachable in a forward pass: distinct applications yield distinct objects, and
the only shared value is the final descent activation sitting on top of the
memory stack. -/

inductive Tensor where
  | input : Tensor
  | app (l : Layer) (asc : Bool) (stage : Nat) (x : Tensor) : Tensor
  | add (x y : Tensor) : Tensor
deriving DecidableEq

/-- Applying one stage's block list in order (the inner `for block in blocks`
loops of `UNet.__call__`). -/
def runStage (asc : Bool) (i : Nat) (ls : List Layer) (x : Tensor) : Tensor :=
  ls.foldl (fun a l => Tensor.app l asc i a) x

/-- Descent loop (lines 234-241): run each stage, then `memory.append(x)`.
The memory stack is kept most-recent-first, so `memory.pop()` is `head`. -/
def descend (i : Nat) : List (List Layer) → Tensor → List Tensor → Tensor × List Tensor
  | [], x, mem => (x, mem)
  | ls :: rest, x, mem =>
      let x1 := runStage false i ls x
      descend (i + 1) rest x1 (x1 :: mem)

/-- Ascent loop (lines 243-253): `y = memory.pop()`, then `if x is not y:
x = x + y` (identity test modelled by structural equality, see `Tensor`),
then the stage's blocks.  The second component logs, per ascent stage,
whether the skip addition was performed. -/
def ascend (i : Nat) : List (List Layer) → List Tensor → Tensor → Tensor × List Bool
  | [], _, x => (x, [])
  | _ :: _, [], x => (x, [])
  | ls :: rest, y :: mem, x =>
      let x1 := if x = y then x else Tensor.add x y
      let r := ascend (i + 1) rest mem (runStage true i ls x1)
      (r.1, (if x = y then false else true) :: r.2)

/-- The whole forward pass of `UNet.__call__`, returning the output expression
and the per-ascent-stage skip-addition log. -/
def unetForward (inCh outCh : Nat) (hidC : List Nat) (heads : List (Nat × Nat))
    (hidB : List Nat) (x : Tensor) : Tensor × List Bool :=
  let d := descend 0 (unetDescent inCh hidC heads hidB) x []
  ascend 0 (unetAscent outCh hidC heads hidB) d.2 d.1

/-! ### Shape semantics of the forward pass

Shapes are `(H, W, C)` triples.  `convDim` is the standard output-size formula
for a convolution with kernel `k`, symmetric padding `k / 2` and stride `s`
(the `kwargs` of `UNet.__init__`, lines 180-183).  Layers whose input channel
count does not match fail (`none`).  Elementwise additions follow the JAX/
NumPy broadcasting rule per dimension: the sides must be equal or one of
them must be 1 (which stretches to the other); otherwise the addition
raises, modelled as `none`.  `PosEmbedding.sincos` (nn.py lines 61-78)
concatenates four `(H, W, C / 4)` tables, so `x + sincos(H, W, C)` adds a
table with `4 * (C / 4)` channels, which broadcasts against `C`. -/

abbrev Shape := Nat × Nat × Nat

def convDim (k s n : Nat) : Nat := (n + 2 * (k / 2) - k) / s + 1

/-- One dimension of the NumPy/JAX broadcasting rule. -/
def broadcastDim (a b : Nat) : Option Nat :=
  if a = b then some a else if a = 1 then some b else if b = 1 then some a else none

/-- Broadcasting of two rank-3 activations, dimension by dimension. -/
def broadcastShape : Shape → Shape → Option Shape
  | (h1, w1, c1), (h2, w2, c2) =>
      (broadcastDim h1 h2).bind fun h =>
        (broadcastDim w1 w2).bind fun w =>
          (broadcastDim c1 c2).map fun c => (h, w, c)

def layerShape (k : Nat) : Layer → Shape → Option Shape
  | Layer.posEmb, (h, w, ch) =>
      (broadcastDim ch (4 * (ch / 4))).map fun c => (h, w, c)
  | Layer.resBlock c, (h, w, ch) => if ch = c then some (h, w, ch) else none
  | Layer.attBlock c _, (h, w, ch) => if ch = c then some (h, w, ch) else none
  | Layer.conv cin cout, (h, w, ch) =>
      if ch = cin then some (convDim k 1 h, convDim k 1 w, cout) else none
  | Layer.convDown cin cout, (h, w, ch) =>
      if ch = cin then some (convDim k 2 h, convDim k 2 w, cout) else none
  | Layer.upsample cin cout, (h, w, ch) =>
      if ch = cin then some (convDim k 1 (2 * h), convDim k 1 (2 * w), cout) else none
  | Layer.linear cin cout, (h, w, ch) => if ch = cin then some (h, w, cout) else none

def stageShape (k : Nat) : List Layer → Shape → Option Shape
  | [], s => some s
  | l :: ls, s => (layerShape k l s).bind (stageShape k ls)

def descendShape (k : Nat) : List (List Layer) → List Shape → Shape → Option (Shape × List Shape)
  | [], mem, s => some (s, mem)
  | ls :: rest, mem, s => (stageShape k ls s).bind fun s1 => descendShape k rest (s1 :: mem) s1

/-- Ascent at shape level: pop `y`, then `if x is not y: x = x + y`.  When the
popped entry is the current activation itself (the deepest stage) no addition
is performed, but the shapes then coincide and the broadcast is the identity,
so the skip step is uniformly the broadcast of the current shape with the
popped shape; then the stage's blocks run. -/
def ascendShape (k : Nat) : List (List Layer) → List Shape → Shape → Option Shape
  | [], _, s => some s
  | _ :: _, [], _ => none
  | ls :: rest, y :: mem, s =>
      (broadcastShape s y).bind fun s1 => (stageShape k ls s1).bind (ascendShape k rest mem)

def unetShape (k inCh outCh : Nat) (hidC : List Nat) (heads : List (Nat × Nat))
    (hidB : List Nat) (s : Shape) : Option Shape :=
  (descendShape k (unetDescent inCh hidC heads hidB) [] s).bind fun d =>
    ascendShape k (unetAscent outCh hidC heads hidB) d.2 d.1

/-! ### Algebraic model of `ResBlock` and `Modulation` (src/priors/nn.py, lines 86-131)

Tensors are modelled per-entry by rationals; the layers a residual block is
composed of (`nn.LayerNorm`, the two `nn.Conv`, `nn.SiLU`, the optional
`nn.TrainingDropout` / `nn.Identity`) are abstract functions `ℚ → ℚ`, since
their numerics are external to the repository.  The block stores its layer
list in the exact order of the `nn.Sequential` built by `ResBlock.__init__`
(lines 116-122). -/

structure ResBlockM where
  modulation : ℚ → ℚ × ℚ × ℚ
  layers : List (ℚ → ℚ)

/-- Sequential application, first layer first. -/
def seqApply (ls : List (ℚ → ℚ)) (x : ℚ) : ℚ :=
  ls.foldl (fun a f => f a) x

/-- `ResBlock.__init__`: `block = Sequential(LayerNorm(), Conv(...), SiLU(),
Dropout-or-Identity, Conv(...))`. -/
def mkResBlock (modu : ℚ → ℚ × ℚ × ℚ) (norm conv1 act drop conv2 : ℚ → ℚ) : ResBlockM :=
  { modulation := modu, layers := [norm, conv1, act, drop, conv2] }

/-- `ResBlock.__call__` (lines 124-131): `a, b, c = modulation(t);
y = (a + 1) * x + b; y = block(y); y = c * y; return x + y`. -/
def ResBlockM.call (rb : ResBlockM) (x t : ℚ) : ℚ :=
  let abc := rb.modulation t
  let y := (abc.1 + 1) * x + abc.2.1
  let y := seqApply rb.layers y
  let y := abc.2.2 * y
  x + y

/-- Modelled from the spec: the residual block as described in spec.md §4.1,
"normalizes input, applies a per-channel affine modulation `(a+1)*x+b` ...,
passes through two convolutions with a nonlinearity and optional dropout
between them, scales the result by a third modulation output `c`, and adds
back the original input" — i.e. with the normalization applied to the input
BEFORE the modulation. -/
def specResBlockCall (modu : ℚ → ℚ × ℚ × ℚ) (norm conv1 act drop conv2 : ℚ → ℚ) (x t : ℚ) : ℚ :=
  let abc := modu t
  let y := norm x
  let y := (abc.1 + 1) * y + abc.2.1
  let y := conv2 (drop (act (conv1 y)))
  x + abc.2.2 * y

/-- Attention-block model (`AttBlock`, nn.py lines 134-158): the same
modulation pattern around normalization and multi-head self-attention.  The
`rearrange` to flattened positions and the `reshape` back are pure shape
moves, identities in this per-entry model; `attn` abstracts the
`nn.MultiheadAttention` call. -/
structure AttBlockM where
  modulation : ℚ → ℚ × ℚ × ℚ
  norm : ℚ → ℚ
  attn : ℚ → ℚ

/-- `AttBlock.__call__` (lines 147-158): `a, b, c = modulation(t);
y = (a + 1) * x + b; y = norm(y); y = attn(y); y = c * y; return x + y`. -/
def AttBlockM.call (ab : AttBlockM) (x t : ℚ) : ℚ :=
  let abc := ab.modulation t
  let y := (abc.1 + 1) * x + abc.2.1
  let y := ab.norm y
  let y := ab.attn y
  let y := abc.2.2 * y
  x + y

/-- Modulation model: `hidden` abstracts the first `nn.Linear` followed by
`nn.SiLU`; the output projection is an explicit affine map, one weight row and
bias entry per output (`a`, `b`, `c`); `mlp(t)` is split in three
(`Modulation.__call__`, lines 100-102). -/
structure ModulationM where
  hidden : ℚ → ℚ
  w : ℚ × ℚ × ℚ
  bias : ℚ × ℚ × ℚ

def ModulationM.call (m : ModulationM) (t : ℚ) : ℚ × ℚ × ℚ :=
  let h := m.hidden t
  (m.w.1 * h + m.bias.1, m.w.2.1 * h + m.bias.2.1, m.w.2.2 * h + m.bias.2.2)

/-- `Modulation.__init__` (lines 89-98): after building the MLP, the output
projection's weight is rescaled in place, `layer.weight.value =
layer.weight.value * 1e-2`; the bias is left untouched. -/
def mkModulation (hidden : ℚ → ℚ) (w bias : ℚ × ℚ × ℚ) : ModulationM :=
  { hidden := hidden
    w := (w.1 * (1 / 100), w.2.1 * (1 / 100), w.2.2 * (1 / 100))
    bias := bias }

/-! ### fastMRI helpers (src/experiments/fastmri/utils.py)

`real2complex` (lines 28-29) splits the last axis in two with
`jnp.array_split(x, 2, axis=-1)` (first section of size `ceil(n / 2)`) and
pairs the halves into complex entries; `complex2real` (lines 32-33)
concatenates real parts then imaginary parts.  The last axis is modelled as a
list over an arbitrary entry type (the leading axes act pointwise), a complex
entry as a real/imaginary pair.  Mismatched section lengths (odd input to
`lax.complex`) raise in JAX and are outside the model. -/

def real2complex {α : Type} (x : List α) : List (α × α) :=
  (x.take ((x.length + 1) / 2)).zip (x.drop ((x.length + 1) / 2))

def complex2real {α : Type} (z : List (α × α)) : List α :=
  z.map Prod.fst ++ z.map Prod.snd

/-! ### `make_mask` (src/experiments/fastmri/utils.py, lines 61-78)

The mask has shape `(1, 320, 1)`; only the middle axis varies, so it is
modelled as a function on `Fin 320`.  The random draw is an arbitrary
function `u` giving the uniform variate of each row; a row is kept when its
variate is below `200 / (320 * r - 120)`, and the central band of half-width
`ceil(60 / r)` is then forced to `True`. -/

def maskHalfWidth (r : Nat) : Nat := (60 + r - 1) / r

def makeMask (r : Nat) (u : Fin 320 → ℚ) : Fin 320 → Bool :=
  fun i =>
    if 160 - maskHalfWidth r ≤ i.val ∧ i.val < 160 + maskHalfWidth r then true
    else decide (u i < 200 / (320 * (r : ℚ) - 120))

/-! ### Event-trace model of `train` (src/experiments/cifar/train.py, lines 64-255)

The trace projects one call of `train(runid, lap)` onto the events the claims
are about: checkpoint reads and writes, optimization steps, and uses of the
model for sampling.  The boolean carried by `optStep`, `evalSample` and
`saveCkpt` is the training-mode flag of the model object involved in that
event:

* `model.train(True)` is called at line 145, before `static, params, others =
  model.partition(...)` (line 147), so every `sgd_step` (line 207) runs the
  training-mode model — `optStep true`;
* the periodic evaluation (lines 233-237) rebuilds `model = static(avrg,
  others)` and calls `model.train(False)` before `sample` — `evalSample false`;
* the final checkpoint (lines 251-255) likewise rebuilds the model and calls
  `model.train(False)` before `dump_module` — `saveCkpt lap false`. -/

inductive Event where
  | loadCkpt (lap : Nat) : Event
  | fitMoments : Event
  | genData : Event
  | optStep (training : Bool) : Event
  | evalSample (training : Bool) : Event
  | saveCkpt (lap : Nat) (training : Bool) : Event
deriving DecidableEq

/-- Events of one epoch (lines 192-249): `steps` optimization steps, then the
evaluation sampling when `(epoch + 1) % 16 == 0`. -/
def epochEvents (staticTraining : Bool) (steps epoch : Nat) : List Event :=
  List.replicate steps (Event.optStep staticTraining) ++
    (if (epoch + 1) % 16 = 0 then [Event.evalSample false] else [])

/-- Event trace of `train(runid, lap)`: for `lap > 0` the previous lap's
checkpoint is loaded (lines 100-101), otherwise moments are fitted (lines
103-120); the bootstrap data is generated by sampling from that previous
model (lines 122-128); then the epochs run with the training flag set at line
145; finally the checkpoint of this lap is written (line 255). -/
def trainRun (lap epochs steps : Nat) : List Event :=
  (if 0 < lap then [Event.loadCkpt (lap - 1)] else [Event.fitMoments]) ++
    [Event.genData] ++
    (List.range epochs).foldl (fun acc e => acc ++ epochEvents true steps e) [] ++
    [Event.saveCkpt lap false]

/-- Checkpoint indices written along a trace (reads are not writes). -/
def ckptWrites (es : List Event) : List Nat :=
  es.filterMap fun e =>
    match e with
    | Event.saveCkpt l _ => some l
    | _ => none

/-- Training-mode discipline of a single event: optimization steps run a
training-mode model, sampling and checkpointing run an evaluation-mode
model. -/
def modeOk : Event → Bool
  | Event.optStep b => b
  | Event.evalSample b => !b
  | Event.saveCkpt _ b => !b
  | _ => true

/-! ### Job scheduling of `__main__` (src/experiments/cifar/train.py, lines 258-286)

The loop appends one job per lap and declares `jobs[lap].after(jobs[lap-1])`
for `lap > 0`; `lapDeps` collects the resulting dependency pairs
(job, prerequisite). -/

def lapDeps (laps : Nat) : List (Nat × Nat) :=
  (List.range laps).foldl (fun acc lap => if 0 < lap then acc ++ [(lap, lap - 1)] else acc) []

/-- Modelled from the spec: the semantics of the external dawgz/slurm
`after` dependency, not part of src/ — an execution (given by start and
finish times of each job) respects the dependencies when every job starts
strictly after each of its prerequisites has finished ("lap k must finish and
checkpoint before lap k+1 starts", spec.md §5). -/
def RespectsDeps (deps : List (Nat × Nat)) (start finish : Nat → Nat) : Prop :=
  ∀ p ∈ deps, finish p.2 < start p.1

/-! ### Small observers used by the theorems -/

/-- Pass tag of the outermost layer application of an expression, if any. -/
def topAsc : Tensor → Option Bool
  | Tensor.app _ asc _ _ => some asc
  | _ => none

/-- Attention-block recognizer. -/
def isAtt : Layer → Bool
  | Layer.attBlock _ _ => true
  | _ => false

/-- Positional-embedding recognizer. -/
def isPos : Layer → Bool
  | Layer.posEmb => true
  | _ => false

/-! ## Claims about the fastMRI helpers -/

/-- C9.  real2complex and complex2real are mutually inverse: splitting an
even-length last axis in half and pairing the halves is undone by
concatenating real and imaginary parts, and conversely. -/
theorem real2complex_complex2real_inverse :
    (∀ (α : Type) (x : List α), 2 ∣ x.length → complex2real (real2complex x) = x)
    ∧ (∀ (α : Type) (z : List (α × α)), real2complex (complex2real z) = z) := by
  constructor
  · intro α x hx
    obtain ⟨m, hm⟩ := hx
    have hsplit : (x.length + 1) / 2 = m := by omega
    have htk : (x.take m).length = m := by
      rw [List.length_take]; omega
    have hdp : (x.drop m).length = m := by
      rw [List.length_drop]; omega
    unfold real2complex complex2real
    rw [hsplit, List.map_fst_zip _ _ (by rw [htk, hdp]),
      List.map_snd_zip _ _ (by rw [htk, hdp]), List.take_append_drop]
  · intro α z
    unfold complex2real real2complex
    have hlen : (z.map Prod.fst ++ z.map Prod.snd).length = z.length + z.length := by
      simp
    have hsplit : ((z.map Prod.fst ++ z.map Prod.snd).length + 1) / 2 = z.length := by
      rw [hlen]; omega
    rw [hsplit]
    have htk : (z.map Prod.fst ++ z.map Prod.snd).take z.length = z.map Prod.fst := by
      have : z.length = (z.map Prod.fst).length := by simp
      rw [this, List.take_left]
    have hdp : (z.map Prod.fst ++ z.map Prod.snd).drop z.length = z.map Prod.snd := by
      have : z.length = (z.map Prod.fst).length := by simp
      rw [this, List.drop_left]
    rw [htk, hdp]
    have h1 := List.zip_unzip z
    rwa [List.unzip_eq_map] at h1

/-- Witness for C9 at a concrete even-length list. -/
theorem real2complex_complex2real_inverse_witness :
    complex2real (real2complex [1, 2, 3, 4]) = [1, 2, 3, 4] :=
  real2complex_complex2real_inverse.1 Nat [1, 2, 3, 4] (by decide)

/-- C10.  For every acceleration factor r ≥ 1 and every random draw, every
row of the mask whose index lies in the central band
`[160 - ceil(60/r), 160 + ceil(60/r))` is True. -/
theorem makeMask_central_band (r : Nat) (hr : 1 ≤ r) (u : Fin 320 → ℚ) (i : Fin 320)
    (h1 : 160 - maskHalfWidth r ≤ i.val) (h2 : i.val < 160 + maskHalfWidth r) :
    makeMask r u i = true := by
  unfold makeMask
  rw [if_pos ⟨h1, h2⟩]

/-- Witness for C10: with acceleration 4 the half-width is ceil(60/4) = 15
and row 150 lies in the band [145, 175). -/
theorem makeMask_central_band_witness :
    makeMask 4 (fun _ => 1) ⟨150, by omega⟩ = true :=
  makeMask_central_band 4 (by decide) (fun _ => 1) ⟨150, by omega⟩ (by decide) (by decide)

/-! ## Claims about `ResBlock` and `Modulation` -/

/-- C2, counterexample.  The claim (and spec.md §4.1) state that
`ResBlock.__call__` FIRST normalizes its input and THEN applies the affine
modulation `(a+1)*x+b`; in the code (lines 124-131) the modulation is applied
to the raw input and the normalization is the first layer of `block`, applied
AFTER the modulation.  The two orders differ: with modulation output
`(1, 1, 1)`, normalization `y ↦ y*y` and identity convolutions, at `x = 1`
the code computes `1 + (2*1+1)^2 = 10` while the claimed order computes
`1 + (2*1+1) = 4`. -/
theorem resBlock_spec_order_counterexample :
    (mkResBlock (fun _ => (1, 1, 1)) (fun y => y * y) id id id id).call 1 0
      ≠ specResBlockCall (fun _ => (1, 1, 1)) (fun y => y * y) id id id id 1 0 := by
  unfold mkResBlock ResBlockM.call specResBlockCall seqApply
  simp only [List.foldl_cons, List.foldl_nil, id]
  norm_num

/-- C2, amended.  `ResBlock.__call__` first applies the per-channel affine
modulation `(a+1)*x+b` derived from the noise-level embedding, then passes
the result through `block` — normalization, a convolution, a nonlinearity,
optional dropout, and a second convolution, in that order — scales the
result by the third modulation output `c`, and adds back the original input:
it returns `x + c * block((a+1)*x + b)`. -/
theorem resBlock_call_eq (modu : ℚ → ℚ × ℚ × ℚ) (norm conv1 act drop conv2 : ℚ → ℚ)
    (x t : ℚ) :
    (mkResBlock modu norm conv1 act drop conv2).call x t
      = x + (modu t).2.2 * conv2 (drop (act (conv1 (norm (((modu t).1 + 1) * x + (modu t).2.1))))) :=
  rfl

/-- C6.  The constructed modulation's output projection has its weight scaled
by 1e-2 and (with the bias at its zero initialization) every output is the
raw affine output scaled by 1/100; in the limit where the scaled projection
vanishes the modulation returns `(0, 0, 0)` and both blocks that use it —
the residual block `x + c*block(...)` and the attention block
`x + c*attn(...)` — are exactly the identity map, so a freshly initialized
ResBlock or AttBlock is near-identity. -/
theorem modulation_near_identity (hidden : ℚ → ℚ) (w : ℚ × ℚ × ℚ) (t : ℚ)
    (norm conv1 act drop conv2 attn : ℚ → ℚ) (x u : ℚ) :
    (mkModulation hidden w 0).call t
      = ((1 / 100) * (w.1 * hidden t), (1 / 100) * (w.2.1 * hidden t),
          (1 / 100) * (w.2.2 * hidden t))
    ∧ (mkResBlock ((mkModulation hidden 0 0).call) norm conv1 act drop conv2).call x u = x
    ∧ (AttBlockM.mk ((mkModulation hidden 0 0).call) norm attn).call x u = x := by
  refine ⟨?_, ?_, ?_⟩
  · unfold mkModulation ModulationM.call
    refine Prod.ext ?_ (Prod.ext ?_ ?_) <;> simp <;> ring
  · unfold mkModulation ModulationM.call mkResBlock ResBlockM.call seqApply
    simp
  · unfold mkModulation ModulationM.call AttBlockM.call
    simp

/-! ## Claims about the training orchestration -/

theorem ckptWrites_append (l1 l2 : List Event) :
    ckptWrites (l1 ++ l2) = ckptWrites l1 ++ ckptWrites l2 :=
  List.filterMap_append l1 l2 _

theorem ckptWrites_epochEvents (b : Bool) (steps epoch : Nat) :
    ckptWrites (epochEvents b steps epoch) = [] := by
  unfold epochEvents ckptWrites
  rw [List.filterMap_append]
  have h1 : (List.replicate steps (Event.optStep b)).filterMap
      (fun e => match e with | Event.saveCkpt l _ => some l | _ => none) = [] := by
    induction steps with
    | zero => rfl
    | succ n ih => rw [List.replicate_succ, List.filterMap_cons]; exact ih
  rw [h1]
  by_cases h : (epoch + 1) % 16 = 0 <;> simp [h]

/-- The epoch loop contributes no checkpoint writes. -/
theorem ckptWrites_epochFold (steps : Nat) :
    ∀ n, ckptWrites ((List.range n).foldl (fun acc e => acc ++ epochEvents true steps e) []) = [] := by
  intro n
  induction n with
  | zero => rfl
  | succ m ih =>
      rw [List.range_succ, List.foldl_append, List.foldl_cons, List.foldl_nil,
        ckptWrites_append, ih, ckptWrites_epochEvents]
      rfl

/-- The trace of `train` splits as a write-free body followed by the single
final checkpoint write. -/
theorem trainRun_split (lap epochs steps : Nat) :
    trainRun lap epochs steps
      = ((if 0 < lap then [Event.loadCkpt (lap - 1)] else [Event.fitMoments]) ++
          [Event.genData] ++
          (List.range epochs).foldl (fun acc e => acc ++ epochEvents true steps e) []) ++
        [Event.saveCkpt lap false]
    ∧ ckptWrites
        ((if 0 < lap then [Event.loadCkpt (lap - 1)] else [Event.fitMoments]) ++
          [Event.genData] ++
          (List.range epochs).foldl (fun acc e => acc ++ epochEvents true steps e) []) = [] := by
  constructor
  · unfold trainRun
    simp [List.append_assoc]
  · rw [ckptWrites_append, ckptWrites_append, ckptWrites_epochFold]
    by_cases h : 0 < lap <;> simp [h, ckptWrites]

/-- C7.  `train(lap)` writes exactly one checkpoint, the one of the current
lap, and it is the last event of the run: an abort at any earlier point (any
proper prefix of the trace) has written no checkpoint at all — in particular
the previous lap's checkpoint, which is only ever read, is never touched. -/
theorem checkpoint_write_once (lap epochs steps : Nat) :
    ckptWrites (trainRun lap epochs steps) = [lap]
    ∧ (trainRun lap epochs steps).getLast? = some (Event.saveCkpt lap false)
    ∧ ∀ m, m < (trainRun lap epochs steps).length →
        ckptWrites ((trainRun lap epochs steps).take m) = [] := by
  obtain ⟨hsplit, hbody⟩ := trainRun_split lap epochs steps
  refine ⟨?_, ?_, ?_⟩
  · rw [hsplit, ckptWrites_append, hbody]
    rfl
  · rw [hsplit, List.getLast?_concat]
  · intro m hm
    rw [hsplit] at hm ⊢
    rw [List.length_append, List.length_singleton] at hm
    rw [List.take_append_of_le_length (by omega)]
    have hsub : List.Sublist
        (ckptWrites (List.take m
          ((if 0 < lap then [Event.loadCkpt (lap - 1)] else [Event.fitMoments]) ++
            [Event.genData] ++
            (List.range epochs).foldl (fun acc e => acc ++ epochEvents true steps e) [])))
        (ckptWrites
          ((if 0 < lap then [Event.loadCkpt (lap - 1)] else [Event.fitMoments]) ++
            [Event.genData] ++
            (List.range epochs).foldl (fun acc e => acc ++ epochEvents true steps e) [])) :=
      List.Sublist.filterMap _ (List.take_sublist m _)
    rw [hbody] at hsub
    exact List.sublist_nil.mp hsub

/-- Witness for C7: in the trace of lap 1 with one epoch of one step,
aborting after two events has written nothing. -/
theorem checkpoint_write_once_witness :
    ckptWrites ((trainRun 1 1 1).take 2) = [] :=
  (checkpoint_write_once 1 1 1).2.2 2 (by decide)

theorem modeOk_epochEvents (steps epoch : Nat) (e : Event)
    (he : e ∈ epochEvents true steps epoch) : modeOk e = true := by
  unfold epochEvents at he
  rcases List.mem_append.mp he with h | h
  · rw [List.eq_of_mem_replicate h]; rfl
  · by_cases hc : (epoch + 1) % 16 = 0
    · rw [if_pos hc] at h
      rw [List.mem_singleton.mp h]; rfl
    · rw [if_neg hc] at h
      exact absurd h (List.not_mem_nil e)

theorem modeOk_epochFold (steps : Nat) :
    ∀ n e, e ∈ (List.range n).foldl (fun acc ep => acc ++ epochEvents true steps ep) [] →
      modeOk e = true := by
  intro n
  induction n with
  | zero => intro e he; exact absurd he (List.not_mem_nil e)
  | succ m ih =>
      intro e he
      rw [List.range_succ, List.foldl_append, List.foldl_cons, List.foldl_nil] at he
      rcases List.mem_append.mp he with h | h
      · exact ih e h
      · exact modeOk_epochEvents steps m e h

/-- C8.  Every optimization step of `train` runs the model in training mode
(the flag set by `model.train(True)` before the parameters are partitioned),
and every use of the model for sampling — the periodic evaluation and the
final pre-checkpoint state — runs it in evaluation mode (`model.train(False)`
is called on the freshly rebuilt model before each such use). -/
theorem training_flag_discipline (lap epochs steps : Nat) :
    (trainRun lap epochs steps).all modeOk = true := by
  rw [List.all_eq_true]
  intro e he
  unfold trainRun at he
  rcases List.mem_append.mp he with h | h
  · rcases List.mem_append.mp h with h1 | h1
    · rcases List.mem_append.mp h1 with h2 | h2
      · by_cases hl : 0 < lap
        · rw [if_pos hl] at h2
          rw [List.mem_singleton.mp h2]; rfl
        · rw [if_neg hl] at h2
          rw [List.mem_singleton.mp h2]; rfl
      · rw [List.mem_singleton.mp h2]; rfl
    · exact modeOk_epochFold steps epochs e h1
  · rw [List.mem_singleton.mp h]; rfl

theorem lapDeps_succ (n : Nat) :
    lapDeps (n + 1) = if 0 < n then lapDeps n ++ [(n, n - 1)] else lapDeps n := by
  unfold lapDeps
  rw [List.range_succ, List.foldl_append, List.foldl_cons, List.foldl_nil]

/-- The dependency pairs declared by the `__main__` loop form exactly the
chain (1,0), (2,1), ..., (laps-1, laps-2). -/
theorem lapDeps_chain : ∀ laps, lapDeps laps = (List.range (laps - 1)).map fun t => (t + 1, t) := by
  intro laps
  induction laps with
  | zero => rfl
  | succ n ih =>
      rw [lapDeps_succ]
      cases n with
      | zero => rfl
      | succ m =>
          rw [if_pos (Nat.succ_pos m), ih]
          have h1 : m + 1 - 1 = m := rfl
          have h2 : m + 1 + 1 - 1 = m + 1 := rfl
          rw [h1, h2, List.range_succ, List.map_append]
          rfl

/-- C3.  The `__main__` loop schedules the laps as a chain — the job of lap
k+1 depends on the job of lap k — so in any execution respecting the
dependencies lap k+1 starts only after lap k finished; the trace of lap k
ends with the write of checkpoint k, and lap k+1 begins by loading
checkpoint k and then generating its bootstrap training data from the loaded
model. -/
theorem laps_sequential (laps epochs steps : Nat) (start finish : Nat → Nat) (k : Nat)
    (hresp : RespectsDeps (lapDeps laps) start finish) (hk : k + 1 < laps) :
    finish k < start (k + 1)
    ∧ (trainRun (k + 1) epochs steps).take 2 = [Event.loadCkpt k, Event.genData]
    ∧ (trainRun k epochs steps).getLast? = some (Event.saveCkpt k false)
    ∧ lapDeps laps = (List.range (laps - 1)).map fun t => (t + 1, t) := by
  refine ⟨?_, ?_, ?_, lapDeps_chain laps⟩
  · have hmem : (k + 1, k) ∈ lapDeps laps := by
      rw [lapDeps_chain]
      exact List.mem_map.mpr ⟨k, List.mem_range.mpr (by omega), rfl⟩
    exact hresp (k + 1, k) hmem
  · unfold trainRun
    rw [if_pos (Nat.succ_pos k)]
    rfl
  · rw [(trainRun_split k epochs steps).1, List.getLast?_concat]

/-- Witness for C3: a two-lap schedule where lap 0 runs in time slot
[0, 5] and lap 1 in [10, 15] respects the dependency chain, and the ordering
conclusions hold for k = 0. -/
theorem laps_sequential_witness :
    (fun n => 10 * n + 5) 0 < (fun n => 10 * n) (0 + 1)
    ∧ (trainRun (0 + 1) 1 1).take 2 = [Event.loadCkpt 0, Event.genData]
    ∧ (trainRun 0 1 1).getLast? = some (Event.saveCkpt 0 false)
    ∧ lapDeps 2 = (List.range (2 - 1)).map fun t => (t + 1, t) :=
  laps_sequential 2 1 1 (fun n => 10 * n) (fun n => 10 * n + 5) 0
    (by
      intro p hp
      rw [show lapDeps 2 = [(1, 0)] from rfl] at hp
      rw [List.mem_singleton.mp hp]
      norm_num)
    (by omega)

/-! ## Claims about the U-Net forward pass (skip connections) -/

theorem topAsc_runStage (asc : Bool) (i : Nat) :
    ∀ (ls : List Layer) (x : Tensor), ls ≠ [] → topAsc (runStage asc i ls x) = some asc := by
  intro ls
  induction ls with
  | nil => intro x hx; exact absurd rfl hx
  | cons l ls ih =>
      intro x _
      cases ls with
      | nil => rfl
      | cons l2 ls2 =>
          unfold runStage at ih ⊢
          rw [List.foldl_cons]
          exact ih (Tensor.app l asc i x) (by simp)

theorem doStage_ne_nil (inCh : Nat) (hidC : List Nat) (heads : List (Nat × Nat)) (i b : Nat) :
    doStage inCh hidC heads i b ≠ [] := by
  unfold doStage
  exact List.cons_ne_nil _ _

theorem upStage_ne_nil (outCh : Nat) (hidC : List Nat) (heads : List (Nat × Nat)) (i b : Nat) :
    upStage outCh hidC heads i b ≠ [] := by
  unfold upStage
  intro h
  have := congrArg List.length h
  simp at this

theorem mem_descentFrom_ne_nil (inCh : Nat) (hidC : List Nat) (heads : List (Nat × Nat)) :
    ∀ (bs : List Nat) (j : Nat) (ls : List Layer), ls ∈ descentFrom inCh hidC heads j bs → ls ≠ [] := by
  intro bs
  induction bs with
  | nil => intro j ls h; exact absurd h (List.not_mem_nil ls)
  | cons b bs ih =>
      intro j ls h
      rcases h with _ | h
      · exact doStage_ne_nil inCh hidC heads j b
      · exact ih (j + 1) ls (by assumption)

theorem mem_ascentFrom_ne_nil (outCh : Nat) (hidC : List Nat) (heads : List (Nat × Nat)) :
    ∀ (bs : List Nat) (j : Nat) (ls : List Layer), ls ∈ ascentFrom outCh hidC heads j bs → ls ≠ [] := by
  intro bs
  induction bs with
  | nil => intro j ls h; exact absurd h (List.not_mem_nil ls)
  | cons b bs ih =>
      intro j ls h
      unfold ascentFrom at h
      rcases List.mem_append.mp h with h1 | h1
      · exact ih (j + 1) ls h1
      · rw [List.mem_singleton.mp h1]
        exact upStage_ne_nil outCh hidC heads j b

theorem descentFrom_length (inCh : Nat) (hidC : List Nat) (heads : List (Nat × Nat)) :
    ∀ (bs : List Nat) (j : Nat), (descentFrom inCh hidC heads j bs).length = bs.length := by
  intro bs
  induction bs with
  | nil => intro j; rfl
  | cons b bs ih => intro j; simp [descentFrom, ih]

theorem ascentFrom_length (outCh : Nat) (hidC : List Nat) (heads : List (Nat × Nat)) :
    ∀ (bs : List Nat) (j : Nat), (ascentFrom outCh hidC heads j bs).length = bs.length := by
  intro bs
  induction bs with
  | nil => intro j; rfl
  | cons b bs ih =>
      intro j
      unfold ascentFrom
      rw [List.length_append, ih, List.length_singleton, List.length_cons]

theorem descend_mem_top :
    ∀ (stages : List (List Layer)) (i : Nat) (x : Tensor) (mem : List Tensor),
      (∀ ls ∈ stages, ls ≠ []) → (∀ y ∈ mem, topAsc y = some false) →
      ∀ y ∈ (descend i stages x mem).2, topAsc y = some false := by
  intro stages
  induction stages with
  | nil => intro i x mem _ hmem y hy; exact hmem y hy
  | cons ls rest ih =>
      intro i x mem hst hmem y hy
      unfold descend at hy
      refine ih (i + 1) _ _ (fun l hl => hst l (List.mem_cons_of_mem ls hl)) ?_ y hy
      intro z hz
      rcases hz with _ | hz
      · exact topAsc_runStage false i ls x (hst ls (List.mem_cons_self ls rest))
      · exact hmem z (by assumption)

theorem descend_len :
    ∀ (stages : List (List Layer)) (i : Nat) (x : Tensor) (mem : List Tensor),
      (descend i stages x mem).2.length = stages.length + mem.length := by
  intro stages
  induction stages with
  | nil => intro i x mem; simp [descend]
  | cons ls rest ih =>
      intro i x mem
      unfold descend
      rw [ih, List.length_cons, List.length_cons]
      omega

theorem descend_head :
    ∀ (stages : List (List Layer)) (i : Nat) (x : Tensor) (mem : List Tensor), stages ≠ [] →
      (descend i stages x mem).2.head? = some (descend i stages x mem).1 := by
  intro stages
  induction stages with
  | nil => intro i x mem h; exact absurd rfl h
  | cons ls rest ih =>
      intro i x mem _
      cases rest with
      | nil => rfl
      | cons r rs =>
          unfold descend
          exact ih (i + 1) _ _ (List.cons_ne_nil r rs)

theorem ascend_log_all_adds :
    ∀ (stages : List (List Layer)) (i : Nat) (mem : List Tensor) (x : Tensor),
      (∀ ls ∈ stages, ls ≠ []) → topAsc x = some true →
      (∀ y ∈ mem, topAsc y = some false) → stages.length ≤ mem.length →
      (ascend i stages mem x).2 = List.replicate stages.length true := by
  intro stages
  induction stages with
  | nil => intro i mem x _ _ _ _; rfl
  | cons ls rest ih =>
      intro i mem x hst hx hmem hlen
      cases mem with
      | nil => simp at hlen
      | cons y mem' =>
          have hxy : x ≠ y := by
            intro h
            rw [h, hmem y (List.mem_cons_self y mem')] at hx
            simp at hx
          unfold ascend
          rw [if_neg hxy, if_neg hxy]
          dsimp only
          rw [ih (i + 1) mem' (runStage true i ls (x.add y))
            (fun l hl => hst l (List.mem_cons_of_mem ls hl))
            (topAsc_runStage true i ls _ (hst ls (List.mem_cons_self ls rest)))
            (fun z hz => hmem z (List.mem_cons_of_mem y hz))
            (by simp only [List.length_cons] at hlen; omega)]
          rfl

/-- C1.  In `UNet.__call__` every ascending stage adds the matching descending
stage's output as a skip connection, except the deepest stage: the skip-add
log of the ascent is `false` for its first (deepest) stage and `true` for all
the others, and the value popped there is exactly the final descent
activation, which flows straight through. -/
theorem unet_skip_connections (inCh outCh : Nat) (hidC : List Nat)
    (heads : List (Nat × Nat)) (hidB : List Nat) (x : Tensor) (hn : hidB ≠ []) :
    (unetForward inCh outCh hidC heads hidB x).2
        = false :: List.replicate (hidB.length - 1) true
    ∧ (descend 0 (unetDescent inCh hidC heads hidB) x []).2.head?
        = some (descend 0 (unetDescent inCh hidC heads hidB) x []).1 := by
  have hD : ∀ ls ∈ unetDescent inCh hidC heads hidB, ls ≠ [] :=
    fun ls h => mem_descentFrom_ne_nil inCh hidC heads hidB 0 ls h
  have hA : ∀ ls ∈ unetAscent outCh hidC heads hidB, ls ≠ [] :=
    fun ls h => mem_ascentFrom_ne_nil outCh hidC heads hidB 0 ls h
  have hDlen : (unetDescent inCh hidC heads hidB).length = hidB.length :=
    descentFrom_length inCh hidC heads hidB 0
  have hAlen : (unetAscent outCh hidC heads hidB).length = hidB.length :=
    ascentFrom_length outCh hidC heads hidB 0
  have hDne : unetDescent inCh hidC heads hidB ≠ [] := by
    intro h
    rw [h] at hDlen
    exact hn (List.length_eq_zero.mp hDlen.symm)
  have hhead := descend_head (unetDescent inCh hidC heads hidB) 0 x [] hDne
  refine ⟨?_, hhead⟩
  have hmemtop := descend_mem_top (unetDescent inCh hidC heads hidB) 0 x [] hD
    (fun y hy => absurd hy (List.not_mem_nil y))
  have hmemlen := descend_len (unetDescent inCh hidC heads hidB) 0 x []
  rw [hDlen] at hmemlen
  have hshow : (unetForward inCh outCh hidC heads hidB x).2
      = (ascend 0 (unetAscent outCh hidC heads hidB)
          (descend 0 (unetDescent inCh hidC heads hidB) x []).2
          (descend 0 (unetDescent inCh hidC heads hidB) x []).1).2 := rfl
  obtain ⟨m0, memT, hmem⟩ : ∃ m0 memT,
      (descend 0 (unetDescent inCh hidC heads hidB) x []).2 = m0 :: memT := by
    cases hm : (descend 0 (unetDescent inCh hidC heads hidB) x []).2 with
    | nil => rw [hm] at hhead; simp at hhead
    | cons a b => exact ⟨a, b, rfl⟩
  have hm0 : m0 = (descend 0 (unetDescent inCh hidC heads hidB) x []).1 := by
    rw [hmem] at hhead
    simpa using hhead
  obtain ⟨a0, At, hAeq⟩ : ∃ a0 At, unetAscent outCh hidC heads hidB = a0 :: At := by
    cases hAc : unetAscent outCh hidC heads hidB with
    | nil => rw [hAc] at hAlen; exact absurd (List.length_eq_zero.mp hAlen.symm) hn
    | cons a b => exact ⟨a, b, rfl⟩
  rw [hshow, hAeq, hmem, hm0]
  unfold ascend
  rw [if_pos rfl, if_pos rfl]
  dsimp only
  have hAtlen : At.length = hidB.length - 1 := by
    have := hAlen
    rw [hAeq, List.length_cons] at this
    omega
  have hmemTlen : memT.length = hidB.length - 1 := by
    have := hmemlen
    rw [hmem, List.length_cons, List.length_nil] at this
    omega
  rw [ascend_log_all_adds At 1 memT
    (runStage true 0 a0 (descend 0 (unetDescent inCh hidC heads hidB) x []).1)
    (fun l hl => hA l (by rw [hAeq]; exact List.mem_cons_of_mem a0 hl))
    (topAsc_runStage true 0 a0 _ (hA a0 (by rw [hAeq]; exact List.mem_cons_self a0 At)))
    (fun z hz => hmemtop z (by rw [hmem]; exact List.mem_cons_of_mem m0 hz))
    (le_of_eq (hAtlen.trans hmemTlen.symm)), hAtlen]

/-- Witness for C1 at a one-stage network: the log is a single skipped add. -/
theorem unet_skip_connections_witness :
    ((unetForward 1 1 [2] [] [1] Tensor.input).2 = false :: List.replicate 0 true
    ∧ (descend 0 (unetDescent 1 [2] [] [1]) Tensor.input []).2.head?
        = some (descend 0 (unetDescent 1 [2] [] [1]) Tensor.input []).1) :=
  unet_skip_connections 1 1 [2] [] [1] Tensor.input (by simp)

/-! ## Claims about the per-stage layer lists -/

theorem stageBody_succ (c : Nat) (h? : Option Nat) (b : Nat) :
    stageBody c h? (b + 1) = stageBody c h? b ++ Layer.resBlock c :: attOpt c h? := by
  unfold stageBody
  rw [List.range_succ, List.foldl_append, List.foldl_cons, List.foldl_nil]

theorem stageBody_countP (c : Nat) (h? : Option Nat) (p : Layer → Bool) :
    ∀ b, (stageBody c h? b).countP p = b * ((Layer.resBlock c :: attOpt c h?).countP p) := by
  intro b
  induction b with
  | zero => simp [stageBody]
  | succ n ih =>
      rw [stageBody_succ, List.countP_append, ih]
      ring

theorem mem_attOpt (c : Nat) :
    ∀ (h? : Option Nat) (l : Layer), l ∈ attOpt c h? →
      ∃ h, h? = some h ∧ l = Layer.attBlock c h := by
  intro h? l
  cases h? with
  | none => intro h; exact absurd h (List.not_mem_nil l)
  | some hd => intro h; exact ⟨hd, rfl, List.mem_singleton.mp h⟩

theorem mem_stageBody (c : Nat) (h? : Option Nat) :
    ∀ b l, l ∈ stageBody c h? b →
      l = Layer.resBlock c ∨ ∃ h, h? = some h ∧ l = Layer.attBlock c h := by
  intro b
  induction b with
  | zero => intro l hl; exact absurd hl (List.not_mem_nil l)
  | succ n ih =>
      intro l hl
      rw [stageBody_succ] at hl
      rcases List.mem_append.mp hl with h1 | h1
      · exact ih l h1
      · rcases List.mem_cons.mp h1 with h2 | h2
        · exact Or.inl h2
        · exact Or.inr (mem_attOpt c h? l h2)

theorem countP_attOpt_isAtt (c : Nat) (h? : Option Nat) :
    (attOpt c h?).countP isAtt = if h?.isSome then 1 else 0 := by
  cases h? <;> rfl

theorem countP_attOpt_isPos (c : Nat) (h? : Option Nat) :
    (attOpt c h?).countP isPos = 0 := by
  cases h? <;> rfl

/-- C5.  Attention blocks appear in stage i's descent and ascent lists exactly
when i is a key of `heads` — one per residual-block repeat, with the head
count configured for that stage; stages not in `heads` contain no attention
block and no positional embedding; the positional embedding appears exactly
once in the descent of stages in `heads` (never in an ascent), preceded only
by the stage's entry projection. -/
theorem heads_controls_attention (inCh outCh : Nat) (hidC : List Nat)
    (heads : List (Nat × Nat)) (hidB : List Nat) (i : Nat)
    (hb : 1 ≤ hidB.getD i 0) :
    ((doStage inCh hidC heads i (hidB.getD i 0)).countP isAtt
        = if (heads.lookup i).isSome then hidB.getD i 0 else 0)
    ∧ ((upStage outCh hidC heads i (hidB.getD i 0)).countP isAtt
        = if (heads.lookup i).isSome then hidB.getD i 0 else 0)
    ∧ (0 < (doStage inCh hidC heads i (hidB.getD i 0)).countP isAtt
        ↔ (heads.lookup i).isSome)
    ∧ (∀ c h, Layer.attBlock c h ∈
          doStage inCh hidC heads i (hidB.getD i 0) ++ upStage outCh hidC heads i (hidB.getD i 0) →
        c = hidC.getD i 0 ∧ heads.lookup i = some h)
    ∧ (heads.lookup i = none →
        ∀ l ∈ doStage inCh hidC heads i (hidB.getD i 0) ++ upStage outCh hidC heads i (hidB.getD i 0),
          isAtt l = false ∧ isPos l = false)
    ∧ ((doStage inCh hidC heads i (hidB.getD i 0)).countP isPos
        = if (heads.lookup i).isSome then 1 else 0)
    ∧ ((upStage outCh hidC heads i (hidB.getD i 0)).countP isPos = 0)
    ∧ (∀ pre post, doStage inCh hidC heads i (hidB.getD i 0) = pre ++ Layer.posEmb :: post →
        ∀ l ∈ pre, l = Layer.conv inCh (hidC.getD i 0)
          ∨ l = Layer.convDown (hidC.getD (i - 1) 0) (hidC.getD i 0)) := by
  have hentry : ¬ isAtt (if 0 < i then Layer.convDown (hidC.getD (i - 1) 0) (hidC.getD i 0)
      else Layer.conv inCh (hidC.getD i 0)) = true := by
    by_cases h : 0 < i <;> simp [h, isAtt]
  have hexit : ¬ isAtt (if 0 < i then Layer.upsample (hidC.getD i 0) (hidC.getD (i - 1) 0)
      else Layer.linear (hidC.getD i 0) outCh) = true := by
    by_cases h : 0 < i <;> simp [h, isAtt]
  have hentryP : ¬ isPos (if 0 < i then Layer.convDown (hidC.getD (i - 1) 0) (hidC.getD i 0)
      else Layer.conv inCh (hidC.getD i 0)) = true := by
    by_cases h : 0 < i <;> simp [h, isPos]
  have hexitP : ¬ isPos (if 0 < i then Layer.upsample (hidC.getD i 0) (hidC.getD (i - 1) 0)
      else Layer.linear (hidC.getD i 0) outCh) = true := by
    by_cases h : 0 < i <;> simp [h, isPos]
  have hdoAtt : (doStage inCh hidC heads i (hidB.getD i 0)).countP isAtt
      = if (heads.lookup i).isSome then hidB.getD i 0 else 0 := by
    unfold doStage
    rw [List.countP_cons_of_neg _ _ hentry, List.countP_append,
      stageBody_countP, List.countP_cons_of_neg _ _ (by simp [isAtt]), countP_attOpt_isAtt]
    cases hh : heads.lookup i <;> simp [hh, isAtt]
  have hupAtt : (upStage outCh hidC heads i (hidB.getD i 0)).countP isAtt
      = if (heads.lookup i).isSome then hidB.getD i 0 else 0 := by
    unfold upStage
    rw [List.countP_append, stageBody_countP,
      List.countP_cons_of_neg _ _ (by simp [isAtt]), countP_attOpt_isAtt,
      List.countP_cons_of_neg _ _ hexit, List.countP_nil]
    cases hh : heads.lookup i <;> simp [hh]
  refine ⟨hdoAtt, hupAtt, ?_, ?_, ?_, ?_, ?_, ?_⟩
  · rw [hdoAtt]
    by_cases hs : (heads.lookup i).isSome
    · rw [if_pos hs]
      exact iff_of_true (by omega) hs
    · rw [if_neg hs]
      exact iff_of_false (by omega) hs
  · intro c h hmem
    have hbody : Layer.attBlock c h ∈ stageBody (hidC.getD i 0) (heads.lookup i) (hidB.getD i 0) := by
      rcases List.mem_append.mp hmem with h1 | h1
      · unfold doStage at h1
        rcases List.mem_cons.mp h1 with h2 | h2
        · exact absurd h2 (by by_cases hp : 0 < i <;> simp [hp])
        · rcases List.mem_append.mp h2 with h3 | h3
          · by_cases hp2 : (heads.lookup i).isSome
            · rw [if_pos hp2] at h3
              exact absurd (List.mem_singleton.mp h3) (by simp)
            · rw [if_neg hp2] at h3
              exact absurd h3 (List.not_mem_nil _)
          · exact h3
      · unfold upStage at h1
        rcases List.mem_append.mp h1 with h2 | h2
        · exact h2
        · exact absurd (List.mem_singleton.mp h2) (by by_cases hp : 0 < i <;> simp [hp])
    rcases mem_stageBody _ _ _ _ hbody with h1 | ⟨hd, hh1, hh2⟩
    · exact absurd h1 (by simp)
    · injection hh2 with e1 e2
      exact ⟨e1, by rw [hh1, e2]⟩
  · intro hnone l hl
    rcases List.mem_append.mp hl with h1 | h1
    · unfold doStage at h1
      rcases List.mem_cons.mp h1 with h2 | h2
      · rw [h2]
        exact ⟨Bool.not_eq_true _ |>.mp hentry, Bool.not_eq_true _ |>.mp hentryP⟩
      · rcases List.mem_append.mp h2 with h3 | h3
        · rw [hnone] at h3
          simp at h3
        · rcases mem_stageBody _ _ _ _ h3 with h4 | ⟨hd, hh1, _⟩
          · rw [h4]; exact ⟨rfl, rfl⟩
          · rw [hnone] at hh1; cases hh1
    · unfold upStage at h1
      rcases List.mem_append.mp h1 with h2 | h2
      · rcases mem_stageBody _ _ _ _ h2 with h4 | ⟨hd, hh1, _⟩
        · rw [h4]; exact ⟨rfl, rfl⟩
        · rw [hnone] at hh1; cases hh1
      · rw [List.mem_singleton.mp h2]
        exact ⟨Bool.not_eq_true _ |>.mp hexit, Bool.not_eq_true _ |>.mp hexitP⟩
  · unfold doStage
    rw [List.countP_cons_of_neg _ _ hentryP, List.countP_append,
      stageBody_countP, List.countP_cons_of_neg _ _ (by simp [isPos]), countP_attOpt_isPos]
    cases hh : heads.lookup i <;> simp [hh, isPos]
  · unfold upStage
    rw [List.countP_append, stageBody_countP,
      List.countP_cons_of_neg _ _ (by simp [isPos]), countP_attOpt_isPos,
      List.countP_cons_of_neg _ _ hexitP, List.countP_nil]
    simp
  · intro pre post heq l hl
    unfold doStage at heq
    cases pre with
    | nil => exact absurd hl (List.not_mem_nil l)
    | cons p0 pre' =>
        rw [List.cons_append] at heq
        injection heq with e1 e2
        have hnotin : Layer.posEmb ∉ stageBody (hidC.getD i 0) (heads.lookup i) (hidB.getD i 0) := by
          intro hin
          rcases mem_stageBody _ _ _ _ hin with h1 | ⟨hd, _, h2⟩
          · cases h1
          · cases h2
        have hpre' : pre' = [] := by
          by_cases hp : (heads.lookup i).isSome
          · rw [if_pos hp] at e2
            cases pre' with
            | nil => rfl
            | cons q0 pre'' =>
                rw [List.cons_append] at e2
                injection e2 with f1 f2
                rw [List.nil_append] at f2
                refine absurd ?_ hnotin
                rw [f2]
                exact List.mem_append_right pre'' (List.mem_cons_self _ post)
          · rw [if_neg hp, List.nil_append] at e2
            refine absurd ?_ hnotin
            rw [e2]
            exact List.mem_append_right pre' (List.mem_cons_self _ post)
        rw [hpre'] at hl
        have hl0 : l = p0 := List.mem_singleton.mp hl
        rw [hl0, ← e1]
        by_cases hp : 0 < i
        · rw [if_pos hp]; exact Or.inr rfl
        · rw [if_neg hp]; exact Or.inl rfl

/-- Witness for C5 at the CIFAR-like configuration with attention at stage 2. -/
theorem heads_controls_attention_witness :
    (doStage 1 [2, 3, 4] [(2, 4)] 2 ([1, 1, 1].getD 2 0)).countP isAtt
      = if (([(2, 4)] : List (Nat × Nat)).lookup 2).isSome then [1, 1, 1].getD 2 0 else 0 :=
  (heads_controls_attention 1 1 [2, 3, 4] [(2, 4)] [1, 1, 1] 2 (by decide)).1

/-! ## Claims about the U-Net output shape -/

theorem convDim_one (k n : Nat) (hk : Odd k) (hn : 0 < n) : convDim k 1 n = n := by
  obtain ⟨m, hm⟩ := hk
  subst hm
  unfold convDim
  omega

theorem convDim_down (k n : Nat) (hk : Odd k) (hn : 0 < n) : convDim k 2 (2 * n) = n := by
  obtain ⟨m, hm⟩ := hk
  subst hm
  unfold convDim
  omega

theorem stageShape_cons (k : Nat) (l : Layer) (ls : List Layer) (s : Shape) :
    stageShape k (l :: ls) s = (layerShape k l s).bind (stageShape k ls) := rfl

theorem descendShape_cons (k : Nat) (ls : List Layer) (rest : List (List Layer))
    (mem : List Shape) (s : Shape) :
    descendShape k (ls :: rest) mem s
      = (stageShape k ls s).bind fun s1 => descendShape k rest (s1 :: mem) s1 := rfl

theorem ascendShape_cons (k : Nat) (ls : List Layer) (rest : List (List Layer))
    (y : Shape) (mem : List Shape) (s : Shape) :
    ascendShape k (ls :: rest) (y :: mem) s
      = (broadcastShape s y).bind fun s1 =>
          (stageShape k ls s1).bind (ascendShape k rest mem) := rfl

theorem broadcastShape_self (s : Shape) : broadcastShape s s = some s := by
  obtain ⟨h, w, c⟩ := s
  simp [broadcastShape, broadcastDim]

theorem stageShape_append (k : Nat) :
    ∀ (l1 l2 : List Layer) (s : Shape),
      stageShape k (l1 ++ l2) s = (stageShape k l1 s).bind (stageShape k l2) := by
  intro l1
  induction l1 with
  | nil => intro l2 s; rfl
  | cons l ls ih =>
      intro l2 s
      rw [List.cons_append, stageShape_cons, stageShape_cons]
      cases layerShape k l s with
      | none => rfl
      | some s1 => exact ih l2 s1

/-- With channels divisible by 4 the sincos table has exactly `C` channels
and the positional embedding keeps the shape. -/
theorem layerShape_posEmb_fixed (k h w c : Nat) (hc4 : 4 ∣ c) :
    layerShape k Layer.posEmb (h, w, c) = some (h, w, c) := by
  obtain ⟨q, rfl⟩ := hc4
  have hq : 4 * q / 4 = q := Nat.mul_div_cancel_left q (by omega)
  simp only [layerShape, hq, broadcastDim, if_pos rfl]
  rfl

theorem mem_stageBody_disj (c : Nat) (h? : Option Nat) (b : Nat) :
    ∀ l ∈ stageBody c h? b,
      l = Layer.resBlock c ∨ ∃ hh, l = Layer.attBlock c hh := by
  intro l hl
  rcases mem_stageBody c h? b l hl with h1 | ⟨hh, _, h1⟩
  · exact Or.inl h1
  · exact Or.inr ⟨hh, h1⟩

/-- Residual and attention blocks with matching channel count keep the
shape. -/
theorem stageShape_resatt_fixed (k : Nat) (c : Nat) :
    ∀ (ls : List Layer),
      (∀ l ∈ ls, l = Layer.resBlock c ∨ ∃ hh, l = Layer.attBlock c hh) →
      ∀ h w, stageShape k ls (h, w, c) = some (h, w, c) := by
  intro ls
  induction ls with
  | nil => intro _ h w; rfl
  | cons l ls ih =>
      intro hmem h w
      have hl : layerShape k l (h, w, c) = some (h, w, c) := by
        rcases hmem l (List.mem_cons_self l ls) with h1 | ⟨hh, h1⟩ <;> subst h1
        · simp [layerShape]
        · simp [layerShape]
      rw [stageShape_cons, hl]
      exact ih (fun l2 hl2 => hmem l2 (List.mem_cons_of_mem l hl2)) h w

/-- The tail of a descent stage (optional positional embedding followed by
the block body) keeps the shape, provided a heads-stage has channels
divisible by 4 (the sincos broadcast constraint). -/
theorem stageShape_tail_fixed (k : Nat) (hidC : List Nat) (heads : List (Nat × Nat)) (i b : Nat)
    (hc4 : (heads.lookup i).isSome → 4 ∣ hidC.getD i 0) :
    ∀ h w, stageShape k ((if (heads.lookup i).isSome then [Layer.posEmb] else []) ++
        stageBody (hidC.getD i 0) (heads.lookup i) b) (h, w, hidC.getD i 0)
      = some (h, w, hidC.getD i 0) := by
  intro h w
  rw [stageShape_append]
  by_cases hp : (heads.lookup i).isSome
  · rw [if_pos hp]
    have h1 : stageShape k [Layer.posEmb] (h, w, hidC.getD i 0)
        = some (h, w, hidC.getD i 0) := by
      rw [stageShape_cons, layerShape_posEmb_fixed k h w _ (hc4 hp)]
      rfl
    rw [h1]
    exact stageShape_resatt_fixed k (hidC.getD i 0) _ (mem_stageBody_disj _ _ b) h w
  · rw [if_neg hp]
    show stageShape k (stageBody (hidC.getD i 0) (heads.lookup i) b) (h, w, hidC.getD i 0)
      = some (h, w, hidC.getD i 0)
    exact stageShape_resatt_fixed k (hidC.getD i 0) _ (mem_stageBody_disj _ _ b) h w

theorem descendShape_acc (k : Nat) :
    ∀ (stages : List (List Layer)) (s : Shape) (mem : List Shape),
      descendShape k stages mem s
        = (descendShape k stages [] s).map fun p => (p.1, p.2 ++ mem) := by
  intro stages
  induction stages with
  | nil => intro s mem; rfl
  | cons ls rest ih =>
      intro s mem
      rw [descendShape_cons, descendShape_cons]
      cases hst : stageShape k ls s with
      | none => rfl
      | some s1 =>
          show descendShape k rest (s1 :: mem) s1
            = (descendShape k rest [s1] s1).map fun p => (p.1, p.2 ++ mem)
          rw [ih s1 (s1 :: mem), ih s1 [s1]]
          cases hd : descendShape k rest [] s1 with
          | none => rfl
          | some p => simp [List.append_assoc]

theorem descendShape_len (k : Nat) :
    ∀ (stages : List (List Layer)) (s : Shape) (mem : List Shape) (sf : Shape) (memf : List Shape),
      descendShape k stages mem s = some (sf, memf) →
      memf.length = stages.length + mem.length := by
  intro stages
  induction stages with
  | nil =>
      intro s mem sf memf h
      have h1 := Option.some.inj h
      have h2 := congrArg (fun p => p.2.length) h1
      simp at h2 ⊢
      omega
  | cons ls rest ih =>
      intro s mem sf memf h
      rw [descendShape_cons] at h
      cases hst : stageShape k ls s with
      | none => rw [hst] at h; cases h
      | some s1 =>
          rw [hst] at h
          have := ih s1 (s1 :: mem) sf memf h
          rw [List.length_cons] at this ⊢
          omega

theorem ascendShape_append (k : Nat) :
    ∀ (A B : List (List Layer)) (m1 m2 : List Shape) (s : Shape), A.length = m1.length →
      ascendShape k (A ++ B) (m1 ++ m2) s
        = (ascendShape k A m1 s).bind fun s1 => ascendShape k B m2 s1 := by
  intro A
  induction A with
  | nil =>
      intro B m1 m2 s hlen
      have h0 : m1 = [] := List.length_eq_zero.mp hlen.symm
      subst h0
      rfl
  | cons a A' ih =>
      intro B m1 m2 s hlen
      cases m1 with
      | nil => simp at hlen
      | cons y m1' =>
          rw [List.cons_append, List.cons_append, ascendShape_cons, ascendShape_cons]
          cases hbc : broadcastShape s y with
          | none => rfl
          | some s1 =>
              show (stageShape k a s1).bind (ascendShape k (A' ++ B) (m1' ++ m2))
                = ((stageShape k a s1).bind (ascendShape k A' m1')).bind
                    fun s2 => ascendShape k B m2 s2
              cases hst : stageShape k a s1 with
              | none => rfl
              | some s2 =>
                  exact ih B m1' m2 s2 (by simp only [List.length_cons] at hlen; omega)

/-- Core mirror-symmetry of the shapes: for the stages built from `bs` at
offsets `j ≥ 1`, the descent succeeds, records one memory shape per stage,
and the matching ascent restores the entry shape exactly (requiring one
factor of two of divisibility per stage). -/
theorem innerShape (k inCh outCh : Nat) (hidC : List Nat) (heads : List (Nat × Nat)) (hk : Odd k)
    (h4 : ∀ i, (heads.lookup i).isSome → 4 ∣ hidC.getD i 0) :
    ∀ (bs : List Nat) (j : Nat), 1 ≤ j → ∀ hh ww : Nat, 0 < hh → 0 < ww →
      2 ^ bs.length ∣ hh → 2 ^ bs.length ∣ ww →
      ∃ sf mem,
        descendShape k (descentFrom inCh hidC heads j bs) [] (hh, ww, hidC.getD (j - 1) 0)
          = some (sf, mem)
        ∧ mem.length = bs.length
        ∧ ascendShape k (ascentFrom outCh hidC heads j bs) mem sf
            = some (hh, ww, hidC.getD (j - 1) 0) := by
  intro bs
  induction bs with
  | nil =>
      intro j hj hh ww hhh hww _ _
      exact ⟨(hh, ww, hidC.getD (j - 1) 0), [], rfl, rfl, rfl⟩
  | cons b bs' ih =>
      intro j hj hh ww hhh hww hdh hdw
      obtain ⟨qh, hqh⟩ := hdh
      obtain ⟨qw, hqw⟩ := hdw
      have hhh2 : hh = 2 * (2 ^ bs'.length * qh) := by
        rw [hqh, List.length_cons, pow_succ]; ring
      have hww2 : ww = 2 * (2 ^ bs'.length * qw) := by
        rw [hqw, List.length_cons, pow_succ]; ring
      have h2pos : 0 < 2 ^ bs'.length * qh := by omega
      have w2pos : 0 < 2 ^ bs'.length * qw := by omega
      have hdvh : 2 ^ bs'.length ∣ 2 ^ bs'.length * qh := Dvd.intro qh rfl
      have hdvw : 2 ^ bs'.length ∣ 2 ^ bs'.length * qw := Dvd.intro qw rfl
      have hdo : stageShape k (doStage inCh hidC heads j b) (hh, ww, hidC.getD (j - 1) 0)
          = some (2 ^ bs'.length * qh, 2 ^ bs'.length * qw, hidC.getD j 0) := by
        unfold doStage
        rw [if_pos (by omega : 0 < j), stageShape_cons]
        have hconv : layerShape k (Layer.convDown (hidC.getD (j - 1) 0) (hidC.getD j 0))
            (hh, ww, hidC.getD (j - 1) 0)
            = some (2 ^ bs'.length * qh, 2 ^ bs'.length * qw, hidC.getD j 0) := by
          simp only [layerShape]
          rw [if_pos trivial, hhh2, hww2, convDim_down k _ hk h2pos, convDim_down k _ hk w2pos]
        rw [hconv]
        exact stageShape_tail_fixed k hidC heads j b (h4 j) _ _
      obtain ⟨sf, mem', hdesc, hlen', hasc⟩ :=
        ih (j + 1) (by omega) (2 ^ bs'.length * qh) (2 ^ bs'.length * qw) h2pos w2pos hdvh hdvw
      simp only [Nat.add_sub_cancel] at hdesc hasc
      have hup : stageShape k (upStage outCh hidC heads j b)
          (2 ^ bs'.length * qh, 2 ^ bs'.length * qw, hidC.getD j 0)
          = some (hh, ww, hidC.getD (j - 1) 0) := by
        unfold upStage
        rw [if_pos (by omega : 0 < j), stageShape_append,
          stageShape_resatt_fixed k (hidC.getD j 0) _ (mem_stageBody_disj _ _ b) _ _]
        show (layerShape k (Layer.upsample (hidC.getD j 0) (hidC.getD (j - 1) 0))
          (2 ^ bs'.length * qh, 2 ^ bs'.length * qw, hidC.getD j 0)).bind (stageShape k [])
            = some (hh, ww, hidC.getD (j - 1) 0)
        have hl : layerShape k (Layer.upsample (hidC.getD j 0) (hidC.getD (j - 1) 0))
            (2 ^ bs'.length * qh, 2 ^ bs'.length * qw, hidC.getD j 0)
            = some (hh, ww, hidC.getD (j - 1) 0) := by
          simp only [layerShape]
          rw [if_pos trivial, convDim_one k _ hk (by omega), convDim_one k _ hk (by omega),
            ← hhh2, ← hww2]
        rw [hl]
        rfl
      refine ⟨sf, mem' ++ [(2 ^ bs'.length * qh, 2 ^ bs'.length * qw, hidC.getD j 0)], ?_, ?_, ?_⟩
      · show descendShape k
            (doStage inCh hidC heads j b :: descentFrom inCh hidC heads (j + 1) bs') []
            (hh, ww, hidC.getD (j - 1) 0) = _
        rw [descendShape_cons, hdo]
        show descendShape k (descentFrom inCh hidC heads (j + 1) bs')
            [(2 ^ bs'.length * qh, 2 ^ bs'.length * qw, hidC.getD j 0)]
            (2 ^ bs'.length * qh, 2 ^ bs'.length * qw, hidC.getD j 0) = _
        rw [descendShape_acc, hdesc]
        rfl
      · simp [hlen']
      · show ascendShape k
            (ascentFrom outCh hidC heads (j + 1) bs' ++ [upStage outCh hidC heads j b])
            (mem' ++ [(2 ^ bs'.length * qh, 2 ^ bs'.length * qw, hidC.getD j 0)]) sf = _
        rw [ascendShape_append k _ _ _ _ _ (by rw [ascentFrom_length]; exact hlen'.symm), hasc]
        show ascendShape k [upStage outCh hidC heads j b]
            [(2 ^ bs'.length * qh, 2 ^ bs'.length * qw, hidC.getD j 0)]
            (2 ^ bs'.length * qh, 2 ^ bs'.length * qw, hidC.getD j 0) = _
        rw [ascendShape_cons, broadcastShape_self]
        show (stageShape k (upStage outCh hidC heads j b)
            (2 ^ bs'.length * qh, 2 ^ bs'.length * qw, hidC.getD j 0)).bind
          (ascendShape k [] []) = some (hh, ww, hidC.getD (j - 1) 0)
        rw [hup]
        rfl

/-- C4, amended.  The final ascending stage of the U-Net ends with a plain
linear layer mapping hid_channels[0] to out_channels (it is the last stage
of the ascent), and on inputs whose spatial sides are positive and
divisible by 2^(stages - 1) — so that the strided halvings and the
nearest-neighbour upsamplings mirror exactly — with odd kernel size and,
for stages configured with attention, channel counts divisible by 4 (the
sincos table constraint), the forward pass returns an output whose spatial
dimensions equal the input's, with out_channels channels. -/
theorem unet_output_shape (k inCh outCh : Nat) (hidC : List Nat)
    (heads : List (Nat × Nat)) (hidB : List Nat) (H W : Nat)
    (hk : Odd k) (hn : hidB ≠ []) (hH : 0 < H) (hW : 0 < W)
    (h4 : ∀ i, (heads.lookup i).isSome → 4 ∣ hidC.getD i 0)
    (hdH : 2 ^ (hidB.length - 1) ∣ H) (hdW : 2 ^ (hidB.length - 1) ∣ W) :
    (upStage outCh hidC heads 0 (hidB.getD 0 0)).getLast?
        = some (Layer.linear (hidC.getD 0 0) outCh)
    ∧ (∃ pre, unetAscent outCh hidC heads hidB
        = pre ++ [upStage outCh hidC heads 0 (hidB.getD 0 0)])
    ∧ unetShape k inCh outCh hidC heads hidB (H, W, inCh) = some (H, W, outCh) := by
  obtain ⟨b0, bs, rfl⟩ : ∃ b0 bs, hidB = b0 :: bs := by
    cases hidB with
    | nil => exact absurd rfl hn
    | cons a b => exact ⟨a, b, rfl⟩
  have hgetD : (b0 :: bs).getD 0 0 = b0 := rfl
  have hup0 : upStage outCh hidC heads 0 b0
      = stageBody (hidC.getD 0 0) (heads.lookup 0) b0 ++ [Layer.linear (hidC.getD 0 0) outCh] := by
    unfold upStage
    rw [if_neg (by omega : ¬ 0 < 0)]
  have hdo0 : stageShape k (doStage inCh hidC heads 0 b0) (H, W, inCh)
      = some (H, W, hidC.getD 0 0) := by
    unfold doStage
    rw [if_neg (by omega : ¬ 0 < 0), stageShape_cons]
    have hconv : layerShape k (Layer.conv inCh (hidC.getD 0 0)) (H, W, inCh)
        = some (H, W, hidC.getD 0 0) := by
      simp only [layerShape]
      rw [if_pos trivial, convDim_one k H hk hH, convDim_one k W hk hW]
    rw [hconv]
    exact stageShape_tail_fixed k hidC heads 0 b0 (h4 0) H W
  have hup0shape : stageShape k (upStage outCh hidC heads 0 b0) (H, W, hidC.getD 0 0)
      = some (H, W, outCh) := by
    rw [hup0, stageShape_append,
      stageShape_resatt_fixed k (hidC.getD 0 0) _ (mem_stageBody_disj _ _ b0) H W]
    have hl : layerShape k (Layer.linear (hidC.getD 0 0) outCh) (H, W, hidC.getD 0 0)
        = some (H, W, outCh) := by
      simp only [layerShape]
      rw [if_pos trivial]
    show (layerShape k (Layer.linear (hidC.getD 0 0) outCh) (H, W, hidC.getD 0 0)).bind
        (stageShape k []) = some (H, W, outCh)
    rw [hl]
    rfl
  refine ⟨?_, ⟨ascentFrom outCh hidC heads 1 bs, by rw [hgetD]; rfl⟩, ?_⟩
  · rw [hgetD, hup0, List.getLast?_concat]
  · have hdH' : 2 ^ bs.length ∣ H := hdH
    have hdW' : 2 ^ bs.length ∣ W := hdW
    obtain ⟨sf, mem', hdesc, hlen', hasc⟩ :=
      innerShape k inCh outCh hidC heads hk h4 bs 1 (le_refl 1) H W hH hW hdH' hdW'
    simp only [Nat.sub_self] at hdesc hasc
    have hfull : descendShape k (unetDescent inCh hidC heads (b0 :: bs)) [] (H, W, inCh)
        = some (sf, mem' ++ [(H, W, hidC.getD 0 0)]) := by
      show descendShape k (doStage inCh hidC heads 0 b0 ::
          descentFrom inCh hidC heads 1 bs) [] (H, W, inCh) = _
      rw [descendShape_cons, hdo0]
      show descendShape k (descentFrom inCh hidC heads 1 bs)
          [(H, W, hidC.getD 0 0)] (H, W, hidC.getD 0 0) = _
      rw [descendShape_acc, hdesc]
      rfl
    unfold unetShape
    rw [hfull]
    show ascendShape k (ascentFrom outCh hidC heads 1 bs ++
        [upStage outCh hidC heads 0 b0]) (mem' ++ [(H, W, hidC.getD 0 0)]) sf
      = some (H, W, outCh)
    rw [ascendShape_append k _ _ _ _ _
      (by rw [ascentFrom_length]; exact hlen'.symm), hasc]
    show ascendShape k [upStage outCh hidC heads 0 b0]
        [(H, W, hidC.getD 0 0)] (H, W, hidC.getD 0 0) = some (H, W, outCh)
    rw [ascendShape_cons, broadcastShape_self]
    show (stageShape k (upStage outCh hidC heads 0 b0) (H, W, hidC.getD 0 0)).bind
        (ascendShape k [] []) = some (H, W, outCh)
    rw [hup0shape]
    rfl

/-- C4, counterexample.  The claim states that the forward pass returns an
output whose spatial dimensions equal the input's, for every input.  On a
(1, 1, 1) input with two stages, the strided convolution keeps the spatial
size at 1 but the nearest-neighbour upsampling doubles it to 2, and the
skip addition (2, 2, c) + (1, 1, c) broadcasts the popped size-1 sides
instead of raising, so the program returns a (2, 2, out_channels) output
for a (1, 1, in_channels) input. -/
theorem unet_output_shape_counterexample :
    unetShape 3 1 4 [2, 3] [] [1, 1] (1, 1, 1) = some (2, 2, 4)
    ∧ ((2, 2, 4) : Shape) ≠ ((1, 1, 4) : Shape) := by
  constructor
  · decide
  · decide

/-- Witness for the amended C4: a two-stage network with odd kernel on a
2×2 input maps (2, 2, 1) to (2, 2, 4). -/
theorem unet_output_shape_witness :
    unetShape 3 1 4 [2, 3] [] [1, 1] (2, 2, 1) = some (2, 2, 4) :=
  (unet_output_shape 3 1 4 [2, 3] [] [1, 1] 2 2 ⟨1, by omega⟩ (by simp)
    (by omega) (by omega) (by intro i h; simp [List.lookup] at h)
    (by decide) (by decide)).2.2

end Diem
